import Mathlib

/-!
Verification development for the qibo_cskim transpiler design notes.

The repository describes a quantum-circuit transpiler: a pipeline of
Optimizer / Placer / Router / Unroller passes that rewrites a logical
circuit into one obeying a device connectivity graph.  The source tree
contains the design notebook (with pseudocode for the star-connectivity
router's mid-qubit selection and docstrings for the cskim utilities) and
a README recording open issues.  Where an implementation is absent from
the sources, definitions below are modelled from the specification and
are marked `Modelled from the spec:` in their doc comments.
-/

namespace QiboTranspiler

/-- Gate-name tags for the closed gate set of the circuit IR (spec section 3:
single-qubit parametrized rotations, a two-qubit entangling gate type, a
generic-unitary placeholder). Parameters are irrelevant to placement and
routing, so they are not carried. -/
inductive GName where
  | cz
  | cx
  | u3
  | rz
  | gpi2
  | generic (k : ℕ)
deriving DecidableEq

/-- A gate application of the circuit IR (spec section 3): a tag plus the
ordered qubit indices it acts on (1 or 2), or an inserted movement (SWAP)
gate.  Immutable data. -/
inductive Gate where
  | g1 (name : GName) (q : ℕ)
  | g2 (name : GName) (q1 q2 : ℕ)
  | mov (q1 q2 : ℕ)
deriving DecidableEq

/-- A layout is a map from logical qubit indices to physical qubit indices
(spec section 3); the bijectivity invariant is stated separately as
`BijOnRange` / `InvPair`. -/
def Layout : Type := ℕ → ℕ

/-- The transposition of `a` and `b` on `ℕ`. -/
def transp (a b x : ℕ) : ℕ :=
  if x = a then b else if x = b then a else x

/-- Layout update performed when a movement (SWAP) gate on physical qubits
`a`, `b` is inserted: the two physical positions exchange the logical
qubits they hold, so the logical-to-physical map is post-composed with the
transposition of `a` and `b`. -/
def swapPhys (a b : ℕ) (l : Layout) : Layout :=
  fun q => transp a b (l q)

/-- The matching update of the inverse (physical-to-logical) map. -/
def swapInv (a b : ℕ) (inv : Layout) : Layout :=
  fun p => inv (transp a b p)

/-- `l` and `inv` are mutually inverse bijections on `{0 .. n-1}`. -/
def InvPair (n : ℕ) (l inv : Layout) : Prop :=
  (∀ q, q < n → l q < n) ∧ (∀ p, p < n → inv p < n) ∧
    (∀ q, q < n → inv (l q) = q) ∧ (∀ p, p < n → l (inv p) = p)

/-- `l` restricts to a bijection of `{0 .. n-1}` onto itself (the Layout
invariant of spec section 3). -/
def BijOnRange (n : ℕ) (l : Layout) : Prop :=
  (∀ q, q < n → l q < n) ∧
    (∀ q, q < n → ∀ r, r < n → l q = l r → q = r) ∧
    (∀ p, p < n → ∃ q, q < n ∧ l q = p)

/-- Well-formedness of a single input gate: qubit indices below the qubit
count, two-qubit gates on distinct qubits, and no movement gates (movement
gates are introduced by routing, not present in logical input circuits). -/
def gateWFb (n : ℕ) : Gate → Bool
  | .g1 _ q => decide (q < n)
  | .g2 _ a b => decide (a < n ∧ b < n ∧ a ≠ b)
  | .mov _ _ => false

/-- Well-formedness of an input circuit (spec section 3: every gate's qubit
indices are below the declared qubit count). -/
def GatesWF (n : ℕ) (gs : List Gate) : Prop :=
  ∀ g ∈ gs, gateWFb n g = true

/-- Connectivity graph (spec section 3): a finite undirected graph on
physical qubit indices, given by a node count and an edge list. -/
structure Conn where
  n : ℕ
  edges : List (ℕ × ℕ)

/-- Well-formed connectivity: edges join distinct nodes below the node
count. -/
def ConnWF (c : Conn) : Prop :=
  ∀ e ∈ c.edges, e.1 < c.n ∧ e.2 < c.n ∧ e.1 ≠ e.2

/-- Undirected adjacency test on the edge list. -/
def Conn.adjacent (c : Conn) (a b : ℕ) : Bool :=
  c.edges.any (fun e => decide ((e.1 = a ∧ e.2 = b) ∨ (e.1 = b ∧ e.2 = a)))

/-- The physical qubit pair of a two-qubit gate (movement gates included),
`none` for single-qubit gates. -/
def twoQubitPair : Gate → Option (ℕ × ℕ)
  | .g1 _ _ => none
  | .g2 _ a b => some (a, b)
  | .mov a b => some (a, b)

/-- Connectivity compliance of a routed circuit (spec section 8): every
two-qubit gate acts on a pair that is an edge of the connectivity graph. -/
def compliant (c : Conn) (out : List Gate) : Prop :=
  ∀ g ∈ out, ∀ a b, twoQubitPair g = some (a, b) → c.adjacent a b = true

/-- Pull a routed circuit back to logical qubit labels: walk the output,
map each emitted gate's physical qubits through the evolving inverse
layout, and absorb movement gates into the inverse layout (a SWAP only
permutes which physical qubit holds which logical qubit).  A routed
circuit is equivalent to the original up to the recorded final layout
exactly when this pullback reproduces the original gate sequence. -/
def logicalTrace : List Gate → Layout → List Gate
  | [], _ => []
  | .g1 s q :: rest, inv => .g1 s (inv q) :: logicalTrace rest inv
  | .g2 s a b :: rest, inv => .g2 s (inv a) (inv b) :: logicalTrace rest inv
  | .mov a b :: rest, inv => logicalTrace rest (swapInv a b inv)

/-- Does gate `g` act on qubit `q`? -/
def gateTouches (g : Gate) (q : ℕ) : Bool :=
  match g with
  | .g1 _ a => decide (a = q)
  | .g2 _ a b => decide (a = q ∨ b = q)
  | .mov a b => decide (a = q ∨ b = q)

/-- The star router's mid-qubit selection, embedded from the pseudocode in
the design notebook (`find(i, q1, q2)`): scan the gate list from position
`i` (the list argument here is the suffix `g[i:]`, so the currently routed
gate is its head); if the examined gate executes on `q1` or `q2`, return
`q1` when it executes on `q1` and `q2` otherwise; if it executes on
neither, return `q1`; if the scan exhausts the list, return `q1`. -/
def find : List Gate → ℕ → ℕ → ℕ
  | [], q1, _ => q1
  | g :: rest, q1, q2 =>
    if gateTouches g q1 || gateTouches g q2 then
      (if gateTouches g q1 then q1 else q2)
    else if !(gateTouches g q1 || gateTouches g q2) then q1
    else find rest q1 q2

/-- Modelled from the spec: the mid-qubit lookahead rule as the spec words
it — scan the gates after the current one for the first future gate
touching `q1` or `q2`, choose the qubit of that pair appearing in it, and
default to `q1` when no such gate exists before the list ends.  (The list
argument is the suffix strictly after the current gate.)  Stated for
comparison with the notebook's `find`. -/
def findLookahead : List Gate → ℕ → ℕ → ℕ
  | [], q1, _ => q1
  | g :: rest, q1, q2 =>
    if gateTouches g q1 then q1
    else if gateTouches g q2 then q2
    else findLookahead rest q1 q2

/-- The star-connectivity router (greedy, single pass), from the notebook
pseudocode and spec section 4.3: maintain one centre physical qubit; emit
single-qubit gates remapped through the layout; emit a two-qubit gate
directly when one of its physical qubits occupies the centre; otherwise
select the mid qubit with `find`, emit a movement gate bringing it to the
centre, update the layout, and emit the gate.  Returns the routed circuit
together with the final layout and its inverse.  (Movement gates in the
input, excluded by `GatesWF`, are treated like two-qubit gates.) -/
def StarConnectivityRouter (center : ℕ) :
    List Gate → Layout → Layout → List Gate × Layout × Layout
  | [], l, inv => ([], l, inv)
  | .g1 s q :: rest, l, inv =>
    let r := StarConnectivityRouter center rest l inv
    (.g1 s (l q) :: r.1, r.2)
  | .g2 s q1 q2 :: rest, l, inv =>
    if l q1 = center ∨ l q2 = center then
      let r := StarConnectivityRouter center rest l inv
      (.g2 s (l q1) (l q2) :: r.1, r.2)
    else
      let m := find (.g2 s q1 q2 :: rest) q1 q2
      let l2 := swapPhys (l m) center l
      let inv2 := swapInv (l m) center inv
      let r := StarConnectivityRouter center rest l2 inv2
      (.mov (l m) center :: .g2 s (l2 q1) (l2 q2) :: r.1, r.2)
  | .mov q1 q2 :: rest, l, inv =>
    if l q1 = center ∨ l q2 = center then
      let r := StarConnectivityRouter center rest l inv
      (.mov (l q1) (l q2) :: r.1, r.2)
    else
      let m := find (.mov q1 q2 :: rest) q1 q2
      let l2 := swapPhys (l m) center l
      let inv2 := swapInv (l m) center inv
      let r := StarConnectivityRouter center rest l2 inv2
      (.mov (l m) center :: .mov (l2 q1) (l2 q2) :: r.1, r.2)

/-- The star graph on `n` nodes with the given centre: every non-centre
node is joined to the centre (spec section 3). -/
def starConnGraph (n center : ℕ) : Conn :=
  ⟨n, ((List.range n).filter (fun x => decide (x ≠ center))).map (fun x => (x, center))⟩

/-- Modelled from the spec: the body of `star_connectivity` is absent from
the sources; its docstring declares a parameterless function returning a
star graph with 5 nodes and 4 edges, and the notebook's transpiled output
shows every two-qubit gate touching physical qubit 2, so the centre is
node 2. -/
def star_connectivity : Conn := starConnGraph 5 2

/-- Is a node sequence a chain of adjacent nodes in `c`? -/
def chainB (c : Conn) : List ℕ → Bool
  | a :: b :: rest => c.adjacent a b && chainB c (b :: rest)
  | _ => true

/-- Modelled from the spec: one breadth-first expansion step of a partial
path whose head is the current endpoint — prepend every neighbour of the
head that is not already on the path. -/
def extendPaths (c : Conn) (p : List ℕ) : List (List ℕ) :=
  match p with
  | [] => []
  | x :: _ =>
    ((List.range c.n).filter (fun q => c.adjacent q x && decide (¬ q ∈ p))).map
      (fun q => q :: p)

/-- Modelled from the spec: fuel-bounded breadth-first search over partial
paths.  The frontier holds paths growing backward from the destination, so
a path is complete as soon as its head equals `src`; the returned list
then reads forward from `src` to the destination. -/
def bfsSearch (c : Conn) (src : ℕ) : ℕ → List (List ℕ) → Option (List ℕ)
  | 0, _ => none
  | fuel + 1, frontier =>
    match frontier.filter (fun p => decide (p.head? = some src)) with
    | p :: _ => some p
    | [] => bfsSearch c src fuel ((frontier.map (extendPaths c)).flatten)

/-- Modelled from the spec: unweighted shortest-path search between two
physical qubits (spec section 4.3, shortest-path router), by breadth-first
search; `none` when the endpoints are disconnected (the `RoutingError`
case). -/
def shortestPathSearch (c : Conn) (src dst : ℕ) : Option (List ℕ) :=
  bfsSearch c src (c.n + 1) [[dst]]

/-- The movement gates walking one endpoint along a path until it is
adjacent to the other endpoint: swap along consecutive path edges,
stopping one edge short of the destination. -/
def movesAlong : List ℕ → List (ℕ × ℕ)
  | a :: b :: x :: rest => (a, b) :: movesAlong (b :: x :: rest)
  | _ => []

/-- Apply a list of movement operations to a layout. -/
def applyMoves : List (ℕ × ℕ) → Layout → Layout
  | [], l => l
  | e :: ms, l => applyMoves ms (swapPhys e.1 e.2 l)

/-- Apply a list of movement operations to an inverse layout. -/
def applyMovesInv : List (ℕ × ℕ) → Layout → Layout
  | [], v => v
  | e :: ms, v => applyMovesInv ms (swapInv e.1 e.2 v)

/-- Modelled from the spec (section 4.3): the shortest-path router.  For
each two-qubit gate whose physical endpoints are not adjacent, compute a
shortest path between them by breadth-first search, insert a chain of
movement gates walking one endpoint next to the other, updating the layout
after every movement, then emit the gate.  Returns `none` (the
`RoutingError` case) when the endpoints are disconnected; movement gates
in the input (excluded by `GatesWF`) are rejected as unroutable. -/
def ShortestPaths (c : Conn) :
    List Gate → Layout → Layout → Option (List Gate × Layout × Layout)
  | [], l, inv => some ([], l, inv)
  | .g1 s q :: rest, l, inv =>
    match ShortestPaths c rest l inv with
    | none => none
    | some r => some (.g1 s (l q) :: r.1, r.2)
  | .g2 s q1 q2 :: rest, l, inv =>
    if c.adjacent (l q1) (l q2) then
      match ShortestPaths c rest l inv with
      | none => none
      | some r => some (.g2 s (l q1) (l q2) :: r.1, r.2)
    else
      match shortestPathSearch c (l q1) (l q2) with
      | none => none
      | some path =>
        let ms := movesAlong path
        let l2 := applyMoves ms l
        let inv2 := applyMovesInv ms inv
        match ShortestPaths c rest l2 inv2 with
        | none => none
        | some r =>
          some (ms.map (fun e => Gate.mov e.1 e.2) ++ .g2 s (l2 q1) (l2 q2) :: r.1, r.2)
  | .mov _ _ :: _, _, _ => none

/-- The last element of a node list (default 0). -/
def lastD : List ℕ → ℕ
  | [] => 0
  | [a] => a
  | _ :: b :: rest => lastD (b :: rest)

/-- The second-to-last element of a node list (default 0). -/
def penult : List ℕ → ℕ
  | [a, _] => a
  | _ :: b :: x :: rest => penult (b :: x :: rest)
  | _ => 0

/-- Invariant of the partial paths stored by the breadth-first search:
nonempty chains of adjacent, pairwise-distinct nodes of the graph ending
at the destination. -/
def PathOK (c : Conn) (dst : ℕ) (p : List ℕ) : Prop :=
  p ≠ [] ∧ chainB c p = true ∧ p.Nodup ∧ lastD p = dst ∧ ∀ x ∈ p, x < c.n

/-- The qubits a gate acts on, as a list. -/
def gateQubits : Gate → List ℕ
  | .g1 _ q => [q]
  | .g2 _ a b => [a, b]
  | .mov a b => [a, b]

/-- Modelled from the spec (section 4.3, SABRE): split a gate list into its
front layer — the gates all of whose qubit-dependencies (earlier gates
sharing a qubit) are satisfied — and the remaining gates, in order.
`blocked` accumulates the qubits of the gates already scanned. -/
def splitFront : List Gate → List ℕ → List Gate × List Gate
  | [], _ => ([], [])
  | g :: rest, blocked =>
    let indep := (gateQubits g).all (fun q => decide (¬ q ∈ blocked))
    let r := splitFront rest (blocked ++ gateQubits g)
    if indep then (g :: r.1, r.2) else (r.1, g :: r.2)

/-- Is a gate executable now: single-qubit, or acting on physical qubits
that are adjacent in the connectivity graph? -/
def executable (c : Conn) (l : Layout) : Gate → Bool
  | .g1 _ _ => true
  | .g2 _ q1 q2 => c.adjacent (l q1) (l q2)
  | .mov q1 q2 => c.adjacent (l q1) (l q2)

/-- Remap a gate's logical qubits to physical qubits through a layout. -/
def remapGate (l : Layout) : Gate → Gate
  | .g1 s q => .g1 s (l q)
  | .g2 s a b => .g2 s (l a) (l b)
  | .mov a b => .mov (l a) (l b)

/-- Graph distance between two physical qubits, from the breadth-first
search (a large default when disconnected); used only for scoring. -/
def gdist (c : Conn) (a b : ℕ) : ℕ :=
  match shortestPathSearch c a b with
  | some p => p.length - 1
  | none => 2 * c.n + 2

/-- The graph-distance contribution of one gate under a layout. -/
def gateDist (c : Conn) (l : Layout) : Gate → ℕ
  | .g1 _ _ => 0
  | .g2 _ a b => gdist c (l a) (l b)
  | .mov a b => gdist c (l a) (l b)

/-- Modelled from the spec (section 4.3, SABRE): the score of a candidate
SWAP — a weighted sum of the front layer's graph distances after the
hypothetical SWAP (weight 2) and of a bounded extended layer's distances
(smaller weight 1), plus the decay penalties of the two swapped qubits. -/
def swapScore (c : Conn) (l : Layout) (decay : ℕ → ℕ) (front ext : List Gate)
    (e : ℕ × ℕ) : ℕ :=
  2 * ((front.map (gateDist c (swapPhys e.1 e.2 l))).sum)
    + (ext.map (gateDist c (swapPhys e.1 e.2 l))).sum + decay e.1 + decay e.2

/-- Modelled from the spec (section 4.3, SABRE): candidate SWAPs are the
connectivity edges touching a physical qubit of some front-layer gate. -/
def candidateSwaps (c : Conn) (l : Layout) (front : List Gate) : List (ℕ × ℕ) :=
  c.edges.filter (fun e =>
    ((front.map gateQubits).flatten.map l).any (fun p => decide (p = e.1 ∨ p = e.2)))

/-- Modelled from the spec (section 4.3): the SABRE router loop.  While
gates remain: if every front-layer gate is single-qubit or already
satisfies connectivity, execute them all (remapped through the layout) and
refill the front layer; otherwise apply the lowest-scoring candidate SWAP,
update the layout and the chosen qubits' decay penalties, and repeat.
`fuel` is the exposed iteration cap (spec section 5); `none` on fuel
exhaustion or when no candidate SWAP exists. -/
def sabreAux (c : Conn) :
    ℕ → List Gate → Layout → Layout → (ℕ → ℕ) → Option (List Gate × Layout × Layout)
  | 0, remaining, l, inv, _ =>
    if remaining.isEmpty then some ([], l, inv) else none
  | fuel + 1, remaining, l, inv, decay =>
    match remaining with
    | [] => some ([], l, inv)
    | g0 :: rest0 =>
      let fr := splitFront (g0 :: rest0) []
      if fr.1.all (executable c l) then
        match sabreAux c fuel fr.2 l inv decay with
        | none => none
        | some r => some (fr.1.map (remapGate l) ++ r.1, r.2)
      else
        match (candidateSwaps c l fr.1).argmin
            (swapScore c l decay fr.1 (fr.2.take 3)) with
        | none => none
        | some e =>
          match sabreAux c fuel (g0 :: rest0) (swapPhys e.1 e.2 l)
              (swapInv e.1 e.2 inv)
              (fun x => if x = e.1 ∨ x = e.2 then decay x + 1 else decay x) with
          | none => none
          | some r => some (.mov e.1 e.2 :: r.1, r.2)

/-- Modelled from the spec: the SABRE heuristic router, with zero initial
decay and a caller-supplied iteration cap. -/
def Sabre (c : Conn) (maxIter : ℕ) (gates : List Gate) (l inv : Layout) :
    Option (List Gate × Layout × Layout) :=
  sabreAux c maxIter gates l inv (fun _ => 0)

/-- Modelled from the spec (section 4.2): the trivial placer — the identity
layout, failing when the logical qubit count exceeds the physical qubit
count. -/
def Trivial (nLogical nPhysical : ℕ) : Option Layout :=
  if nLogical ≤ nPhysical then some (fun q => q) else none

/-- Number of two-qubit gates of the circuit acting on qubit `q`. -/
def degreeOf (gates : List Gate) (q : ℕ) : ℕ :=
  gates.countP (fun g => match g with
    | .g2 _ a b => decide (a = q ∨ b = q)
    | _ => false)

/-- Modelled from the spec (section 4.2): the star-connectivity placer —
assign the logical qubit with the highest two-qubit-gate degree to the
star's centre (by the transposition exchanging it with the qubit currently
there). -/
def StarConnectivityPlacer (gates : List Gate) (n center : ℕ) : Layout :=
  fun q => transp (((List.range n).argmax (degreeOf gates)).getD 0) center q

/-- A linear congruential step, standing in for the random source. -/
def lcg (s : ℕ) : ℕ := (1103515245 * s + 12345) % 2147483648

/-- Modelled from the spec (section 4.2): the random placer draws a
bijection from an explicit caller-supplied seed by composing seeded
transpositions (one per position, Fisher-Yates style). -/
def randomShuffle : ℕ → ℕ → ℕ → Layout
  | 0, _, _ => fun q => q
  | k + 1, s, n => fun q => transp (k % n) (lcg s % n) (randomShuffle k (lcg s) n q)

/-- Modelled from the spec (section 4.2): the random placer on `n` qubits
with an explicit seed. -/
def RandomPlacer (n seed : ℕ) : Layout := randomShuffle n seed n

/-- The qubit pairs sharing a two-qubit gate (the circuit's interaction
graph). -/
def interactionPairs (gates : List Gate) : List (ℕ × ℕ) :=
  gates.filterMap (fun g => match g with
    | .g2 _ a b => some (a, b)
    | _ => none)

/-- Is `p` (as a list of images of `0 .. n-1`) a permutation of
`0 .. n-1`? -/
def isPermList (n : ℕ) (p : List ℕ) : Bool :=
  decide (p.length = n) && decide p.Nodup
    && (List.range n).all (fun v => decide (v ∈ p))
    && (List.range n).all (fun i => decide (p.getD i 0 < n))

/-- Does the candidate assignment embed the circuit's interaction graph
into the connectivity graph? -/
def embedsOK (c : Conn) (p : List ℕ) (pairs : List (ℕ × ℕ)) : Bool :=
  pairs.all (fun e => c.adjacent (p.getD e.1 0) (p.getD e.2 0))

/-- Modelled from the spec (section 4.2): the subgraph placer — search the
assignments (permutations of the physical qubits) for one under which
every interacting qubit pair is adjacent, and fall back to the trivial
identity placement when none exists. -/
def Subgraph (c : Conn) (n : ℕ) (gates : List Gate) : Layout :=
  match (List.range n).permutations.filter
      (fun p => isPermList n p && embedsOK c p (interactionPairs gates)) with
  | [] => fun q => q
  | p :: _ => fun q => p.getD q 0

/-- Modelled from the spec (section 4.2): the reverse-traversal placer —
starting from the trivial placement, repeatedly run the given routing pass
(here the star router, as in the notebook) forward over the circuit and
then backward over the reversed circuit, taking each traversal's final
layout as the next traversal's initial layout, for a fixed number of
iterations. -/
def ReverseTraversal (center : ℕ) (gates : List Gate) : ℕ → Layout × Layout
  | 0 => (fun q => q, fun q => q)
  | k + 1 =>
    let p := ReverseTraversal center gates k
    let fwd := (StarConnectivityRouter center gates p.1 p.2).2
    (StarConnectivityRouter center gates.reverse fwd.1 fwd.2).2

/-- The declared kind of a pipeline pass (spec section 3). -/
inductive PassKind where
  | optimizer
  | placer
  | router
  | unroller
deriving DecidableEq

/-- Modelled from the spec (sections 3 and 4.1): a pipeline pass — a
declared kind together with its transformation of the circuit and
layout. -/
structure TranspilerPass where
  kind : PassKind
  transform : List Gate × Layout → List Gate × Layout

/-- The pipeline's error taxonomy relevant to validation (spec
section 7). -/
inductive PipelineError where
  | pipelineStructureError
deriving DecidableEq

/-- Number of Placer-kind passes in a pass list. -/
def placerCount : List PassKind → ℕ
  | [] => 0
  | .placer :: rest => placerCount rest + 1
  | _ :: rest => placerCount rest

/-- Does the pass list contain a Placer-kind pass? -/
def hasPlacer : List PassKind → Bool
  | [] => false
  | .placer :: _ => true
  | _ :: rest => hasPlacer rest

/-- Does some Router-kind pass occur before a Placer-kind pass? -/
def routerBeforePlacer : List PassKind → Bool
  | [] => false
  | .router :: rest => hasPlacer rest || routerBeforePlacer rest
  | _ :: rest => routerBeforePlacer rest

/-- Modelled from the spec (section 4.1): structural validation of the
pass list — at most one Placer pass, and no Router pass before the
Placer. -/
def validPasses (ps : List PassKind) : Bool :=
  decide (placerCount ps ≤ 1) && !(routerBeforePlacer ps)

/-- Execute the passes in list order, threading the circuit and layout. -/
def execPasses : List TranspilerPass → List Gate × Layout → List Gate × Layout
  | [], s => s
  | p :: ps, s => execPasses ps (p.transform s)

/-- Modelled from the spec (sections 4.1 and 6): run the pipeline —
validate the pass-list structure first and fail with
`pipelineStructureError` before executing any pass when it is violated;
otherwise execute the passes in order starting from the default trivial
identity placement (used when no Placer pass is present). -/
def runPipeline (passes : List TranspilerPass) (circuit : List Gate) :
    Except PipelineError (List Gate × Layout) :=
  if validPasses (passes.map (fun p => p.kind)) then
    Except.ok (execPasses passes (circuit, fun q => q))
  else
    Except.error PipelineError.pipelineStructureError

/-- The parameter list of `random_control_circuit_qibo`, from its
docstring in the design notebook: `(n_qubits, n_cs, cx=False)` — note the
absence of a seed parameter. -/
def random_control_circuit_qibo_params : List String :=
  ["n_qubits", "n_cs", "cx"]

/-- Modelled from the spec: the body of `random_control_circuit_qibo` is
absent from the sources; its notebook docstring declares
`random_control_circuit_qibo(n_qubits, n_cs, cx=False)` generating `n_cs`
control gates (CX when `cx`, else CZ) — with no seed parameter, so the
draws come from the process-wide random state, modelled here as the
explicit `rngState` argument (which a caller of the Python function cannot
supply). -/
def random_control_circuit_qibo (rngState n_qubits n_cs : ℕ) (cx : Bool) : List Gate :=
  match n_cs with
  | 0 => []
  | k + 1 =>
    let s1 := lcg rngState
    let s2 := lcg s1
    let a := s1 % n_qubits
    let b := (a + 1 + s2 % (n_qubits - 1)) % n_qubits
    Gate.g2 (if cx then GName.cx else GName.cz) a b
      :: random_control_circuit_qibo s2 n_qubits k cx

instance decidableGatesWF (n : ℕ) (gs : List Gate) : Decidable (GatesWF n gs) :=
  List.decidableBAll _ gs

instance decidableInvPair (n : ℕ) (l inv : Layout) : Decidable (InvPair n l inv) := by
  unfold InvPair
  infer_instance

instance decidableConnWF (c : Conn) : Decidable (ConnWF c) :=
  List.decidableBAll _ c.edges

instance decidableBijOnRange (n : ℕ) (l : Layout) : Decidable (BijOnRange n l) := by
  unfold BijOnRange
  infer_instance

/-! ## Lemmas and theorems -/

lemma transp_lt {n a b x : ℕ} (ha : a < n) (hb : b < n) (hx : x < n) :
    transp a b x < n := by
  unfold transp; split_ifs <;> assumption

lemma transp_transp (a b x : ℕ) : transp a b (transp a b x) = x := by
  unfold transp; split_ifs <;> omega

lemma invPair_swap {n a b : ℕ} {l inv : Layout} (ha : a < n) (hb : b < n)
    (h : InvPair n l inv) : InvPair n (swapPhys a b l) (swapInv a b inv) := by
  obtain ⟨h1, h2, h3, h4⟩ := h
  refine ⟨fun q hq => transp_lt ha hb (h1 q hq),
          fun p hp => h2 _ (transp_lt ha hb hp), fun q hq => ?_, fun p hp => ?_⟩
  · show inv (transp a b (transp a b (l q))) = q
    rw [transp_transp]; exact h3 q hq
  · show transp a b (l (inv (transp a b p))) = p
    rw [h4 _ (transp_lt ha hb hp), transp_transp]

lemma invPair_inj {n : ℕ} {l inv : Layout} (h : InvPair n l inv)
    {q r : ℕ} (hq : q < n) (hr : r < n) (he : l q = l r) : q = r := by
  have := h.2.2.1 q hq
  rw [he, h.2.2.1 r hr] at this
  omega

lemma invPair_bijOnRange {n : ℕ} {l inv : Layout} (h : InvPair n l inv) :
    BijOnRange n l :=
  ⟨h.1, fun _ hq _ hr he => invPair_inj h hq hr he,
   fun p hp => ⟨inv p, h.2.1 p hp, h.2.2.2 p hp⟩⟩

lemma find_mem (gs : List Gate) (q1 q2 : ℕ) :
    find gs q1 q2 = q1 ∨ find gs q1 q2 = q2 := by
  induction gs with
  | nil => exact Or.inl rfl
  | cons g rest ih =>
    simp only [find]
    split_ifs
    · exact Or.inl rfl
    · exact Or.inr rfl
    · exact Or.inl rfl
    · exact ih

lemma compliant_nil (c : Conn) : compliant c [] := by
  intro g hg; cases hg

lemma compliant_cons {c : Conn} {g : Gate} {out : List Gate}
    (hg : ∀ a b, twoQubitPair g = some (a, b) → c.adjacent a b = true)
    (hout : compliant c out) : compliant c (g :: out) := by
  intro g' hg' a b hp
  rcases List.mem_cons.mp hg' with h | h
  · exact hg a b (h ▸ hp)
  · exact hout g' h a b hp

lemma starConnGraph_adj_left {n center a : ℕ} (ha : a < n) (hne : a ≠ center) :
    (starConnGraph n center).adjacent a center = true := by
  unfold starConnGraph Conn.adjacent
  rw [List.any_eq_true]
  refine ⟨(a, center), List.mem_map.mpr ⟨a, List.mem_filter.mpr
    ⟨List.mem_range.mpr ha, by simpa using hne⟩, rfl⟩, by simp⟩

lemma starConnGraph_adj_right {n center a : ℕ} (ha : a < n) (hne : a ≠ center) :
    (starConnGraph n center).adjacent center a = true := by
  unfold starConnGraph Conn.adjacent
  rw [List.any_eq_true]
  refine ⟨(a, center), List.mem_map.mpr ⟨a, List.mem_filter.mpr
    ⟨List.mem_range.mpr ha, by simpa using hne⟩, rfl⟩, by simp⟩

lemma starConnGraph_adj_center {n center a b : ℕ}
    (h : (starConnGraph n center).adjacent a b = true) : a = center ∨ b = center := by
  unfold starConnGraph Conn.adjacent at h
  rw [List.any_eq_true] at h
  obtain ⟨e, he, hd⟩ := h
  obtain ⟨x, hx, hxe⟩ := List.mem_map.mp he
  rw [decide_eq_true_eq] at hd
  rcases hd with ⟨h1, h2⟩ | ⟨h1, h2⟩
  · right; rw [← h2, ← hxe]
  · left; rw [← h2, ← hxe]

lemma starRouter_correct (n center : ℕ) (hc : center < n) :
    ∀ (gates : List Gate) (l inv : Layout), GatesWF n gates → InvPair n l inv →
      logicalTrace (StarConnectivityRouter center gates l inv).1 inv = gates
      ∧ compliant (starConnGraph n center) (StarConnectivityRouter center gates l inv).1
      ∧ InvPair n (StarConnectivityRouter center gates l inv).2.1
          (StarConnectivityRouter center gates l inv).2.2 := by
  intro gates
  induction gates with
  | nil =>
    intro l inv _ hinv
    exact ⟨rfl, compliant_nil _, hinv⟩
  | cons g rest ih =>
    intro l inv hwf hinv
    have hg : gateWFb n g = true := hwf g (List.mem_cons_self _ _)
    have hrest : GatesWF n rest := fun g' hm => hwf g' (List.mem_cons_of_mem _ hm)
    cases g with
    | g1 s q =>
      have hq : q < n := by simpa [gateWFb] using hg
      obtain ⟨iht, ihc, ihp⟩ := ih l inv hrest hinv
      refine ⟨?_, ?_, ?_⟩
      · simp only [StarConnectivityRouter, logicalTrace, iht, hinv.2.2.1 q hq]
      · exact compliant_cons (by intro a b h; cases h) ihc
      · exact ihp
    | g2 s q1 q2 =>
      have hq : q1 < n ∧ q2 < n ∧ q1 ≠ q2 := by simpa [gateWFb] using hg
      by_cases hcen : l q1 = center ∨ l q2 = center
      · obtain ⟨iht, ihc, ihp⟩ := ih l inv hrest hinv
        refine ⟨?_, ?_, ?_⟩
        · simp only [StarConnectivityRouter, if_pos hcen, logicalTrace, iht,
            hinv.2.2.1 q1 hq.1, hinv.2.2.1 q2 hq.2.1]
        · simp only [StarConnectivityRouter, if_pos hcen]
          refine compliant_cons ?_ ihc
          intro a b hp
          simp only [twoQubitPair, Option.some.injEq, Prod.mk.injEq] at hp
          obtain ⟨rfl, rfl⟩ := hp
          have hne : l q1 ≠ l q2 := fun he => hq.2.2 (invPair_inj hinv hq.1 hq.2.1 he)
          rcases hcen with h | h
          · rw [h]
            exact starConnGraph_adj_right (hinv.1 q2 hq.2.1) (fun he => hne (by rw [h, he]))
          · rw [h]
            exact starConnGraph_adj_left (hinv.1 q1 hq.1) (fun he => hne (by rw [h, he]))
        · simp only [StarConnectivityRouter, if_pos hcen]
          exact (ih l inv hrest hinv).2.2
      · have hm := find_mem (.g2 s q1 q2 :: rest) q1 q2
        set m := find (.g2 s q1 q2 :: rest) q1 q2 with hmdef
        have hmlt : m < n := by rcases hm with h | h <;> rw [h] <;> [exact hq.1; exact hq.2.1]
        have hlmne : l m ≠ center := by
          rcases hm with h | h <;> rw [h] <;> intro he <;> exact hcen (by simp [he])
        have hlmlt : l m < n := hinv.1 m hmlt
        have hinv2 : InvPair n (swapPhys (l m) center l) (swapInv (l m) center inv) :=
          invPair_swap hlmlt hc hinv
        obtain ⟨iht, ihc, ihp⟩ :=
          ih (swapPhys (l m) center l) (swapInv (l m) center inv) hrest hinv2
        have hl2q1 : swapPhys (l m) center l q1 < n := hinv2.1 q1 hq.1
        have hl2q2 : swapPhys (l m) center l q2 < n := hinv2.1 q2 hq.2.1
        have hl2ne : swapPhys (l m) center l q1 ≠ swapPhys (l m) center l q2 :=
          fun he => hq.2.2 (invPair_inj hinv2 hq.1 hq.2.1 he)
        have hmcen : swapPhys (l m) center l m = center := by
          show transp (l m) center (l m) = center
          unfold transp; simp
        refine ⟨?_, ?_, ?_⟩
        · simp only [StarConnectivityRouter, if_neg hcen, ← hmdef, logicalTrace, iht,
            hinv2.2.2.1 q1 hq.1, hinv2.2.2.1 q2 hq.2.1]
        · simp only [StarConnectivityRouter, if_neg hcen, ← hmdef]
          refine compliant_cons ?_ (compliant_cons ?_ ihc)
          · intro a b hp
            simp only [twoQubitPair, Option.some.injEq, Prod.mk.injEq] at hp
            obtain ⟨rfl, rfl⟩ := hp
            exact starConnGraph_adj_left hlmlt hlmne
          · intro a b hp
            simp only [twoQubitPair, Option.some.injEq, Prod.mk.injEq] at hp
            obtain ⟨rfl, rfl⟩ := hp
            rcases hm with h | h
            · have h1 : swapPhys (l m) center l q1 = center := by rw [← h] at *; exact hmcen
              rw [h1]
              exact starConnGraph_adj_right hl2q2 (fun he => hl2ne (by rw [h1, he]))
            · have h2 : swapPhys (l m) center l q2 = center := by rw [← h] at *; exact hmcen
              rw [h2]
              exact starConnGraph_adj_left hl2q1 (fun he => hl2ne (by rw [h2, he]))
        · simp only [StarConnectivityRouter, if_neg hcen, ← hmdef]
          exact ihp
    | mov q1 q2 =>
      exact absurd hg (by simp [gateWFb])


lemma lastD_mem : ∀ (p : List ℕ), p ≠ [] → lastD p ∈ p := by
  intro p
  induction p with
  | nil => intro h; exact absurd rfl h
  | cons a t ih =>
    intro _
    cases t with
    | nil => simp [lastD]
    | cons b rest => exact List.mem_cons_of_mem _ (ih (by simp))

lemma extendPaths_ok {c : Conn} {dst : ℕ} {p q : List ℕ} (hp : PathOK c dst p)
    (hq : q ∈ extendPaths c p) : PathOK c dst q := by
  obtain ⟨hne, hchain, hnd, hlast, hbnd⟩ := hp
  cases p with
  | nil => exact absurd rfl hne
  | cons x t =>
    simp only [extendPaths, List.mem_map] at hq
    obtain ⟨v, hv, rfl⟩ := hq
    rw [List.mem_filter] at hv
    obtain ⟨hvr, hvb⟩ := hv
    rw [Bool.and_eq_true, decide_eq_true_eq] at hvb
    refine ⟨by simp, ?_, ?_, ?_, ?_⟩
    · show (c.adjacent v x && chainB c (x :: t)) = true
      rw [Bool.and_eq_true]; exact ⟨hvb.1, hchain⟩
    · exact List.nodup_cons.mpr ⟨hvb.2, hnd⟩
    · show lastD (v :: x :: t) = dst
      exact hlast
    · intro y hy
      rcases List.mem_cons.mp hy with rfl | hy
      · exact List.mem_range.mp hvr
      · exact hbnd y hy

lemma bfsSearch_sound (c : Conn) (src dst : ℕ) :
    ∀ (fuel : ℕ) (frontier : List (List ℕ)) (p : List ℕ),
      (∀ q ∈ frontier, PathOK c dst q) →
      bfsSearch c src fuel frontier = some p →
      p.head? = some src ∧ PathOK c dst p := by
  intro fuel
  induction fuel with
  | zero => intro frontier p _ h; cases h
  | succ fuel ih =>
    intro frontier p hfr h
    simp only [bfsSearch] at h
    cases hfilter : frontier.filter (fun q => decide (q.head? = some src)) with
    | cons q t =>
      rw [hfilter] at h
      have h2 : some q = some p := h
      have hqp : q = p := by injection h2
      rw [← hqp]
      have hq : q ∈ frontier.filter (fun r => decide (r.head? = some src)) := by
        rw [hfilter]; exact List.mem_cons_self _ _
      have hmf := List.mem_filter.mp hq
      exact ⟨by simpa using hmf.2, hfr q hmf.1⟩
    | nil =>
      rw [hfilter] at h
      have h2 : bfsSearch c src fuel ((frontier.map (extendPaths c)).flatten) = some p := h
      refine ih _ p ?_ h2
      intro q hq
      rw [List.mem_flatten] at hq
      obtain ⟨L, hL, hqL⟩ := hq
      rw [List.mem_map] at hL
      obtain ⟨p0, hp0, rfl⟩ := hL
      exact extendPaths_ok (hfr p0 hp0) hqL

lemma shortestPathSearch_sound {c : Conn} {src dst : ℕ} (hdst : dst < c.n)
    {p : List ℕ} (h : shortestPathSearch c src dst = some p) :
    p.head? = some src ∧ PathOK c dst p := by
  refine bfsSearch_sound c src dst _ _ p ?_ h
  intro q hq
  have : q = [dst] := by simpa using hq
  subst this
  exact ⟨by simp, rfl, by simp, rfl, by simpa using hdst⟩

lemma movesAlong_mem : ∀ (rest : List ℕ) (a b : ℕ) (e : ℕ × ℕ),
    e ∈ movesAlong (a :: b :: rest) → e.1 ∈ a :: b :: rest ∧ e.2 ∈ a :: b :: rest := by
  intro rest
  induction rest with
  | nil => intro a b e he; simp [movesAlong] at he
  | cons x rs ih =>
    intro a b e he
    rw [show movesAlong (a :: b :: x :: rs) = (a, b) :: movesAlong (b :: x :: rs)
      from rfl] at he
    rcases List.mem_cons.mp he with h | h
    · subst h; exact ⟨List.mem_cons_self _ _,
        List.mem_cons_of_mem _ (List.mem_cons_self _ _)⟩
    · have := ih b x e h
      exact ⟨List.mem_cons_of_mem _ this.1, List.mem_cons_of_mem _ this.2⟩

lemma movesAlong_adj {c : Conn} : ∀ (rest : List ℕ) (a b : ℕ),
    chainB c (a :: b :: rest) = true →
    ∀ e ∈ movesAlong (a :: b :: rest), c.adjacent e.1 e.2 = true := by
  intro rest
  induction rest with
  | nil => intro a b _ e he; simp [movesAlong] at he
  | cons x rs ih =>
    intro a b hch e he
    have hch1 : (c.adjacent a b && chainB c (b :: x :: rs)) = true := hch
    rw [Bool.and_eq_true] at hch1
    have hch2 := hch1
    rw [show movesAlong (a :: b :: x :: rs) = (a, b) :: movesAlong (b :: x :: rs)
      from rfl] at he
    rcases List.mem_cons.mp he with h | h
    · subst h; exact hch2.1
    · exact ih b x hch2.2 e h

lemma movesAlong_ne_last : ∀ (rest : List ℕ) (a b : ℕ),
    (a :: b :: rest).Nodup →
    ∀ e ∈ movesAlong (a :: b :: rest),
      e.1 ≠ lastD (a :: b :: rest) ∧ e.2 ≠ lastD (a :: b :: rest) := by
  intro rest
  induction rest with
  | nil => intro a b _ e he; simp [movesAlong] at he
  | cons x rs ih =>
    intro a b hnd e he
    have hnd2 : a ∉ b :: x :: rs ∧ (b :: x :: rs).Nodup := List.nodup_cons.mp hnd
    have hlmem : lastD (b :: x :: rs) ∈ b :: x :: rs := lastD_mem _ (by simp)
    rw [show lastD (a :: b :: x :: rs) = lastD (b :: x :: rs) from rfl]
    rw [show movesAlong (a :: b :: x :: rs) = (a, b) :: movesAlong (b :: x :: rs)
      from rfl] at he
    rcases List.mem_cons.mp he with h | h
    · subst h
      constructor
      · intro hcon
        exact hnd2.1 (by rw [show a = lastD (b :: x :: rs) from hcon]; exact hlmem)
      · have hb : b ∉ x :: rs := (List.nodup_cons.mp hnd2.2).1
        intro hcon
        have hcon2 : b = lastD (x :: rs) := hcon
        exact hb (by rw [hcon2]; exact lastD_mem (x :: rs) (by simp))
    · exact ih b x hnd2.2 e h

lemma applyMoves_invPair {n : ℕ} : ∀ (ms : List (ℕ × ℕ)) (l inv : Layout),
    (∀ e ∈ ms, e.1 < n ∧ e.2 < n) → InvPair n l inv →
    InvPair n (applyMoves ms l) (applyMovesInv ms inv) := by
  intro ms
  induction ms with
  | nil => intro l inv _ h; exact h
  | cons e rest ih =>
    intro l inv hb h
    have he := hb e (List.mem_cons_self _ _)
    exact ih _ _ (fun e' h' => hb e' (List.mem_cons_of_mem _ h'))
      (invPair_swap he.1 he.2 h)

lemma applyMoves_fixed : ∀ (ms : List (ℕ × ℕ)) (l : Layout) (q : ℕ),
    (∀ e ∈ ms, l q ≠ e.1 ∧ l q ≠ e.2) → applyMoves ms l q = l q := by
  intro ms
  induction ms with
  | nil => intro l q _; rfl
  | cons e rest ih =>
    intro l q hne
    have he := hne e (List.mem_cons_self _ _)
    have hstep : swapPhys e.1 e.2 l q = l q := by
      show transp e.1 e.2 (l q) = l q
      unfold transp
      rw [if_neg he.1, if_neg he.2]
    rw [show applyMoves (e :: rest) l = applyMoves rest (swapPhys e.1 e.2 l) from rfl]
    rw [ih (swapPhys e.1 e.2 l) q (fun e' h' => hstep ▸ hne e' (List.mem_cons_of_mem _ h')),
      hstep]

lemma movesEnd : ∀ (rest : List ℕ) (a b : ℕ) (l : Layout) (q1 : ℕ),
    l q1 = a →
    applyMoves (movesAlong (a :: b :: rest)) l q1 = penult (a :: b :: rest) := by
  intro rest
  induction rest with
  | nil =>
    intro a b l q1 hl
    show l q1 = penult [a, b]
    rw [hl]; rfl
  | cons x rs ih =>
    intro a b l q1 hl
    rw [show movesAlong (a :: b :: x :: rs) = (a, b) :: movesAlong (b :: x :: rs)
      from rfl]
    rw [show applyMoves ((a, b) :: movesAlong (b :: x :: rs)) l
        = applyMoves (movesAlong (b :: x :: rs)) (swapPhys a b l) from rfl]
    have hstep : swapPhys a b l q1 = b := by
      show transp a b (l q1) = b
      rw [hl]; unfold transp; simp
    rw [show penult (a :: b :: x :: rs) = penult (b :: x :: rs) from rfl]
    exact ih b x _ q1 hstep

lemma penult_adj_last {c : Conn} : ∀ (rest : List ℕ) (a b : ℕ),
    chainB c (a :: b :: rest) = true →
    c.adjacent (penult (a :: b :: rest)) (lastD (a :: b :: rest)) = true := by
  intro rest
  induction rest with
  | nil =>
    intro a b hch
    have hch1 : (c.adjacent a b && chainB c [b]) = true := hch
    rw [Bool.and_eq_true] at hch1
    exact hch1.1
  | cons x rs ih =>
    intro a b hch
    have hch1 : (c.adjacent a b && chainB c (b :: x :: rs)) = true := hch
    rw [Bool.and_eq_true] at hch1
    exact ih b x hch1.2

lemma logicalTrace_movPrefix : ∀ (ms : List (ℕ × ℕ)) (out : List Gate) (inv : Layout),
    logicalTrace (ms.map (fun e => Gate.mov e.1 e.2) ++ out) inv
      = logicalTrace out (applyMovesInv ms inv) := by
  intro ms
  induction ms with
  | nil => intro out inv; rfl
  | cons e rest ih =>
    intro out inv
    rw [show (((e :: rest).map (fun e => Gate.mov e.1 e.2)) ++ out)
        = Gate.mov e.1 e.2 :: (rest.map (fun e => Gate.mov e.1 e.2) ++ out) from rfl]
    rw [show logicalTrace (Gate.mov e.1 e.2 :: (rest.map (fun e => Gate.mov e.1 e.2) ++ out)) inv
        = logicalTrace (rest.map (fun e => Gate.mov e.1 e.2) ++ out) (swapInv e.1 e.2 inv)
      from rfl]
    exact ih out (swapInv e.1 e.2 inv)


lemma compliant_append {c : Conn} {xs ys : List Gate} (hx : compliant c xs)
    (hy : compliant c ys) : compliant c (xs ++ ys) := by
  intro g hg
  rcases List.mem_append.mp hg with h | h
  · exact hx g h
  · exact hy g h

lemma shortestPaths_correct (c : Conn) :
    ∀ (gates : List Gate) (l inv : Layout) (r : List Gate × Layout × Layout),
      GatesWF c.n gates → InvPair c.n l inv →
      ShortestPaths c gates l inv = some r →
      logicalTrace r.1 inv = gates ∧ compliant c r.1 ∧ InvPair c.n r.2.1 r.2.2 := by
  intro gates
  induction gates with
  | nil =>
    intro l inv r _ hinv hr
    have h2 : some (([] : List Gate), l, inv) = some r := hr
    have h3 : (([] : List Gate), l, inv) = r := by injection h2
    rw [← h3]
    exact ⟨rfl, compliant_nil _, hinv⟩
  | cons g rest ih =>
    intro l inv r hwf hinv hr
    have hg : gateWFb c.n g = true := hwf g (List.mem_cons_self _ _)
    have hrest : GatesWF c.n rest := fun g' hm => hwf g' (List.mem_cons_of_mem _ hm)
    cases g with
    | g1 s q =>
      have hq : q < c.n := by simpa [gateWFb] using hg
      simp only [ShortestPaths] at hr
      cases heq : ShortestPaths c rest l inv with
      | none => rw [heq] at hr; simp at hr
      | some r' =>
        rw [heq] at hr
        have h2 : some (Gate.g1 s (l q) :: r'.1, r'.2) = some r := hr
        have h3 : (Gate.g1 s (l q) :: r'.1, r'.2) = r := by injection h2
        obtain ⟨iht, ihc, ihp⟩ := ih l inv r' hrest hinv heq
        rw [← h3]
        refine ⟨?_, ?_, ihp⟩
        · show Gate.g1 s (inv (l q)) :: logicalTrace r'.1 inv = Gate.g1 s q :: rest
          rw [hinv.2.2.1 q hq, iht]
        · exact compliant_cons (by intro a b h; cases h) ihc
    | g2 s q1 q2 =>
      have hq : q1 < c.n ∧ q2 < c.n ∧ q1 ≠ q2 := by simpa [gateWFb] using hg
      by_cases hadj : c.adjacent (l q1) (l q2) = true
      · simp only [ShortestPaths, if_pos hadj] at hr
        cases heq : ShortestPaths c rest l inv with
        | none => rw [heq] at hr; simp at hr
        | some r' =>
          rw [heq] at hr
          have h2 : some (Gate.g2 s (l q1) (l q2) :: r'.1, r'.2) = some r := hr
          have h3 : (Gate.g2 s (l q1) (l q2) :: r'.1, r'.2) = r := by injection h2
          obtain ⟨iht, ihc, ihp⟩ := ih l inv r' hrest hinv heq
          rw [← h3]
          refine ⟨?_, ?_, ihp⟩
          · show Gate.g2 s (inv (l q1)) (inv (l q2)) :: logicalTrace r'.1 inv
              = Gate.g2 s q1 q2 :: rest
            rw [hinv.2.2.1 q1 hq.1, hinv.2.2.1 q2 hq.2.1, iht]
          · refine compliant_cons ?_ ihc
            intro a b hp
            simp only [twoQubitPair, Option.some.injEq, Prod.mk.injEq] at hp
            obtain ⟨rfl, rfl⟩ := hp
            exact hadj
      · simp only [ShortestPaths, if_neg hadj] at hr
        cases hpath : shortestPathSearch c (l q1) (l q2) with
        | none => rw [hpath] at hr; simp at hr
        | some path =>
          rw [hpath] at hr
          have hsound := shortestPathSearch_sound (hinv.1 q2 hq.2.1) hpath
          have hhead := hsound.1
          obtain ⟨hpne, hchain, hnd, hlast, hbnd⟩ := hsound.2
          have hne12 : l q1 ≠ l q2 :=
            fun he => hq.2.2 (invPair_inj hinv hq.1 hq.2.1 he)
          cases path with
          | nil => simp at hhead
          | cons a tail =>
            have ha : a = l q1 := by simpa using hhead
            subst ha
            cases tail with
            | nil => exact absurd (by simpa [lastD] using hlast) hne12
            | cons b ptail =>
              have hmsb : ∀ e ∈ movesAlong (l q1 :: b :: ptail), e.1 < c.n ∧ e.2 < c.n := by
                intro e he
                have hm := movesAlong_mem ptail (l q1) b e he
                exact ⟨hbnd _ hm.1, hbnd _ hm.2⟩
              have hinv2 : InvPair c.n (applyMoves (movesAlong (l q1 :: b :: ptail)) l)
                  (applyMovesInv (movesAlong (l q1 :: b :: ptail)) inv) :=
                applyMoves_invPair _ _ _ hmsb hinv
              have hl2q1 : applyMoves (movesAlong (l q1 :: b :: ptail)) l q1
                  = penult (l q1 :: b :: ptail) :=
                movesEnd ptail (l q1) b l q1 rfl
              have hl2q2 : applyMoves (movesAlong (l q1 :: b :: ptail)) l q2 = l q2 := by
                refine applyMoves_fixed _ _ _ ?_
                intro e he
                have hne := movesAlong_ne_last ptail (l q1) b hnd e he
                rw [hlast] at hne
                exact ⟨fun hcon => hne.1 hcon.symm, fun hcon => hne.2 hcon.symm⟩
              have hadj2 : c.adjacent (applyMoves (movesAlong (l q1 :: b :: ptail)) l q1)
                  (applyMoves (movesAlong (l q1 :: b :: ptail)) l q2) = true := by
                rw [hl2q1, hl2q2, ← hlast]
                exact penult_adj_last ptail (l q1) b hchain
              have hr2 : (match ShortestPaths c rest
                    (applyMoves (movesAlong (l q1 :: b :: ptail)) l)
                    (applyMovesInv (movesAlong (l q1 :: b :: ptail)) inv) with
                  | none => none
                  | some r2 =>
                    some ((movesAlong (l q1 :: b :: ptail)).map (fun e => Gate.mov e.1 e.2)
                      ++ Gate.g2 s (applyMoves (movesAlong (l q1 :: b :: ptail)) l q1)
                          (applyMoves (movesAlong (l q1 :: b :: ptail)) l q2) :: r2.1,
                      r2.2)) = some r := hr
              cases hrec : ShortestPaths c rest
                  (applyMoves (movesAlong (l q1 :: b :: ptail)) l)
                  (applyMovesInv (movesAlong (l q1 :: b :: ptail)) inv) with
              | none => rw [hrec] at hr2; simp at hr2
              | some r' =>
                rw [hrec] at hr2
                have h2 : some ((movesAlong (l q1 :: b :: ptail)).map (fun e => Gate.mov e.1 e.2)
                    ++ Gate.g2 s (applyMoves (movesAlong (l q1 :: b :: ptail)) l q1)
                        (applyMoves (movesAlong (l q1 :: b :: ptail)) l q2) :: r'.1, r'.2)
                    = some r := hr2
                have h3 : ((movesAlong (l q1 :: b :: ptail)).map (fun e => Gate.mov e.1 e.2)
                    ++ Gate.g2 s (applyMoves (movesAlong (l q1 :: b :: ptail)) l q1)
                        (applyMoves (movesAlong (l q1 :: b :: ptail)) l q2) :: r'.1, r'.2)
                    = r := by injection h2
                obtain ⟨iht, ihc, ihp⟩ := ih _ _ r' hrest hinv2 hrec
                rw [← h3]
                refine ⟨?_, ?_, ihp⟩
                · rw [logicalTrace_movPrefix]
                  show Gate.g2 s
                      (applyMovesInv (movesAlong (l q1 :: b :: ptail)) inv
                        (applyMoves (movesAlong (l q1 :: b :: ptail)) l q1))
                      (applyMovesInv (movesAlong (l q1 :: b :: ptail)) inv
                        (applyMoves (movesAlong (l q1 :: b :: ptail)) l q2))
                      :: logicalTrace r'.1 (applyMovesInv (movesAlong (l q1 :: b :: ptail)) inv)
                      = Gate.g2 s q1 q2 :: rest
                  rw [hinv2.2.2.1 q1 hq.1, hinv2.2.2.1 q2 hq.2.1, iht]
                · refine compliant_append ?_ (compliant_cons ?_ ihc)
                  · intro g' hg' x y hp
                    obtain ⟨e, he, rfl⟩ := List.mem_map.mp hg'
                    simp only [twoQubitPair, Option.some.injEq, Prod.mk.injEq] at hp
                    obtain ⟨rfl, rfl⟩ := hp
                    exact movesAlong_adj ptail (l q1) b hchain e he
                  · intro x y hp
                    simp only [twoQubitPair, Option.some.injEq, Prod.mk.injEq] at hp
                    obtain ⟨rfl, rfl⟩ := hp
                    exact hadj2
    | mov q1 q2 =>
      simp only [ShortestPaths] at hr
      simp at hr


lemma edges_adjacent {c : Conn} {e : ℕ × ℕ} (he : e ∈ c.edges) :
    c.adjacent e.1 e.2 = true := by
  unfold Conn.adjacent
  rw [List.any_eq_true]
  exact ⟨e, he, by simp⟩

lemma splitFront_perm : ∀ (gs : List Gate) (blocked : List ℕ),
    List.Perm ((splitFront gs blocked).1 ++ (splitFront gs blocked).2) gs := by
  intro gs
  induction gs with
  | nil => intro blocked; simp [splitFront]
  | cons g rest ih =>
    intro blocked
    by_cases hindep : (gateQubits g).all (fun q => decide (¬ q ∈ blocked)) = true
    · have heq : splitFront (g :: rest) blocked
          = (g :: (splitFront rest (blocked ++ gateQubits g)).1,
             (splitFront rest (blocked ++ gateQubits g)).2) := by
        simp only [splitFront]
        rw [if_pos hindep]
      rw [heq]
      exact (ih (blocked ++ gateQubits g)).cons g
    · have heq : splitFront (g :: rest) blocked
          = ((splitFront rest (blocked ++ gateQubits g)).1,
             g :: (splitFront rest (blocked ++ gateQubits g)).2) := by
        simp only [splitFront]
        rw [if_neg hindep]
      rw [heq]
      exact List.Perm.trans List.perm_middle ((ih (blocked ++ gateQubits g)).cons g)

lemma logicalTrace_remapPrefix {n : ℕ} {l inv : Layout} (hinv : InvPair n l inv) :
    ∀ (xs ys : List Gate), (∀ g ∈ xs, gateWFb n g = true) →
      logicalTrace (xs.map (remapGate l) ++ ys) inv = xs ++ logicalTrace ys inv := by
  intro xs
  induction xs with
  | nil => intro ys _; rfl
  | cons g rest ih =>
    intro ys hwf
    have hg := hwf g (List.mem_cons_self _ _)
    have hrest := fun g' h => hwf g' (List.mem_cons_of_mem _ h)
    cases g with
    | g1 s q =>
      have hq : q < n := by simpa [gateWFb] using hg
      show Gate.g1 s (inv (l q)) :: logicalTrace (rest.map (remapGate l) ++ ys) inv = _
      rw [hinv.2.2.1 q hq, ih ys hrest]
      rfl
    | g2 s a b =>
      have hab : a < n ∧ b < n ∧ a ≠ b := by simpa [gateWFb] using hg
      show Gate.g2 s (inv (l a)) (inv (l b))
          :: logicalTrace (rest.map (remapGate l) ++ ys) inv = _
      rw [hinv.2.2.1 a hab.1, hinv.2.2.1 b hab.2.1, ih ys hrest]
      rfl
    | mov a b => exact absurd hg (by simp [gateWFb])

lemma sabreAux_correct (c : Conn) (hcw : ConnWF c) :
    ∀ (fuel : ℕ) (remaining : List Gate) (l inv : Layout) (decay : ℕ → ℕ)
      (r : List Gate × Layout × Layout),
      GatesWF c.n remaining → InvPair c.n l inv →
      sabreAux c fuel remaining l inv decay = some r →
      List.Perm (logicalTrace r.1 inv) remaining ∧ compliant c r.1
        ∧ InvPair c.n r.2.1 r.2.2 := by
  intro fuel
  induction fuel with
  | zero =>
    intro remaining l inv decay r _ hinv hr
    have hr2 : (if remaining.isEmpty = true then some (([] : List Gate), l, inv)
        else none) = some r := hr
    by_cases hre : remaining.isEmpty = true
    · rw [if_pos hre] at hr2
      have h3 : (([] : List Gate), l, inv) = r := by injection hr2
      rw [← h3, List.isEmpty_iff.mp hre]
      exact ⟨List.Perm.refl _, compliant_nil _, hinv⟩
    · rw [if_neg hre] at hr2
      simp at hr2
  | succ fuel ih =>
    intro remaining l inv decay r hwf hinv hr
    cases remaining with
    | nil =>
      have hr2 : some (([] : List Gate), l, inv) = some r := hr
      have h3 : (([] : List Gate), l, inv) = r := by injection hr2
      rw [← h3]
      exact ⟨List.Perm.refl _, compliant_nil _, hinv⟩
    | cons g0 rest0 =>
      have hr2 : (if (splitFront (g0 :: rest0) []).1.all (executable c l) = true then
          (match sabreAux c fuel (splitFront (g0 :: rest0) []).2 l inv decay with
           | none => none
           | some r2 =>
             some ((splitFront (g0 :: rest0) []).1.map (remapGate l) ++ r2.1, r2.2))
        else
          (match (candidateSwaps c l (splitFront (g0 :: rest0) []).1).argmin
              (swapScore c l decay (splitFront (g0 :: rest0) []).1
                ((splitFront (g0 :: rest0) []).2.take 3)) with
           | none => none
           | some e =>
             match sabreAux c fuel (g0 :: rest0) (swapPhys e.1 e.2 l)
                 (swapInv e.1 e.2 inv)
                 (fun x => if x = e.1 ∨ x = e.2 then decay x + 1 else decay x) with
             | none => none
             | some r2 => some (.mov e.1 e.2 :: r2.1, r2.2))) = some r := hr
      have hperm := splitFront_perm (g0 :: rest0) []
      have hmem1 : ∀ g ∈ (splitFront (g0 :: rest0) []).1, g ∈ g0 :: rest0 :=
        fun g h => hperm.mem_iff.mp (List.mem_append_left _ h)
      have hmem2 : ∀ g ∈ (splitFront (g0 :: rest0) []).2, g ∈ g0 :: rest0 :=
        fun g h => hperm.mem_iff.mp (List.mem_append_right _ h)
      by_cases hexec : (splitFront (g0 :: rest0) []).1.all (executable c l) = true
      · rw [if_pos hexec] at hr2
        cases hrec : sabreAux c fuel (splitFront (g0 :: rest0) []).2 l inv decay with
        | none => rw [hrec] at hr2; simp at hr2
        | some r2 =>
          rw [hrec] at hr2
          have h3 : ((splitFront (g0 :: rest0) []).1.map (remapGate l) ++ r2.1, r2.2)
              = r := by injection hr2
          obtain ⟨iht, ihc, ihp⟩ :=
            ih (splitFront (g0 :: rest0) []).2 l inv decay r2
              (fun g h => hwf g (hmem2 g h)) hinv hrec
          rw [← h3]
          refine ⟨?_, ?_, ihp⟩
          · rw [logicalTrace_remapPrefix hinv _ r2.1 (fun g h => hwf g (hmem1 g h))]
            exact List.Perm.trans
              (List.Perm.append_left (splitFront (g0 :: rest0) []).1 iht) hperm
          · refine compliant_append ?_ ihc
            intro g' hg' x y hp
            obtain ⟨g, hgmem, rfl⟩ := List.mem_map.mp hg'
            have hex : executable c l g = true :=
              List.all_eq_true.mp hexec g hgmem
            cases g with
            | g1 sn q => cases hp
            | g2 sn a b =>
              simp only [remapGate, twoQubitPair, Option.some.injEq, Prod.mk.injEq] at hp
              obtain ⟨rfl, rfl⟩ := hp
              exact hex
            | mov a b =>
              exact absurd (hwf _ (hmem1 _ hgmem)) (by simp [gateWFb])
      · rw [if_neg hexec] at hr2
        cases hargm : (candidateSwaps c l (splitFront (g0 :: rest0) []).1).argmin
            (swapScore c l decay (splitFront (g0 :: rest0) []).1
              ((splitFront (g0 :: rest0) []).2.take 3)) with
        | none => rw [hargm] at hr2; simp at hr2
        | some e =>
          rw [hargm] at hr2
          have hr3 : (match sabreAux c fuel (g0 :: rest0) (swapPhys e.1 e.2 l)
                (swapInv e.1 e.2 inv)
                (fun x => if x = e.1 ∨ x = e.2 then decay x + 1 else decay x) with
              | none => none
              | some r2 => some (Gate.mov e.1 e.2 :: r2.1, r2.2)) = some r := hr2
          have hecand : e ∈ candidateSwaps c l (splitFront (g0 :: rest0) []).1 :=
            List.argmin_mem (Option.mem_def.mpr hargm)
          have heedge : e ∈ c.edges := (List.mem_filter.mp hecand).1
          have hbnds := hcw e heedge
          cases hrec : sabreAux c fuel (g0 :: rest0) (swapPhys e.1 e.2 l)
              (swapInv e.1 e.2 inv)
              (fun x => if x = e.1 ∨ x = e.2 then decay x + 1 else decay x) with
          | none => rw [hrec] at hr3; simp at hr3
          | some r2 =>
            rw [hrec] at hr3
            have h3 : (Gate.mov e.1 e.2 :: r2.1, r2.2) = r := by injection hr3
            obtain ⟨iht, ihc, ihp⟩ :=
              ih (g0 :: rest0) (swapPhys e.1 e.2 l) (swapInv e.1 e.2 inv) _ r2 hwf
                (invPair_swap hbnds.1 hbnds.2.1 hinv) hrec
            rw [← h3]
            refine ⟨iht, ?_, ihp⟩
            refine compliant_cons ?_ ihc
            intro x y hp
            simp only [twoQubitPair, Option.some.injEq, Prod.mk.injEq] at hp
            obtain ⟨rfl, rfl⟩ := hp
            exact edges_adjacent heedge


lemma bijOnRange_id (n : ℕ) : BijOnRange n (fun q => q) :=
  ⟨fun _ hq => hq, fun _ _ _ _ he => he, fun p hp => ⟨p, hp, rfl⟩⟩

lemma invPair_id (n : ℕ) : InvPair n (fun q => q) (fun q => q) :=
  ⟨fun _ hq => hq, fun _ hp => hp, fun _ _ => rfl, fun _ _ => rfl⟩

lemma transp_inj {a b x y : ℕ} (h : transp a b x = transp a b y) : x = y := by
  have := congrArg (transp a b) h
  rwa [transp_transp, transp_transp] at this

lemma bijOnRange_transp_comp {n a b : ℕ} {l : Layout} (ha : a < n) (hb : b < n)
    (hl : BijOnRange n l) : BijOnRange n (fun q => transp a b (l q)) := by
  refine ⟨fun q hq => transp_lt ha hb (hl.1 q hq),
          fun q hq r hr he => hl.2.1 q hq r hr (transp_inj he), fun p hp => ?_⟩
  obtain ⟨q, hq, hlq⟩ := hl.2.2 (transp a b p) (transp_lt ha hb hp)
  refine ⟨q, hq, ?_⟩
  show transp a b (l q) = p
  rw [hlq, transp_transp]

lemma bijOnRange_swapPhys {n a b : ℕ} {l : Layout} (ha : a < n) (hb : b < n)
    (hl : BijOnRange n l) : BijOnRange n (swapPhys a b l) :=
  bijOnRange_transp_comp ha hb hl

lemma starPlacer_bij (gates : List Gate) (n center : ℕ) (hn : 0 < n)
    (hc : center < n) : BijOnRange n (StarConnectivityPlacer gates n center) := by
  unfold StarConnectivityPlacer
  have ht : (((List.range n).argmax (degreeOf gates)).getD 0) < n := by
    cases h : (List.range n).argmax (degreeOf gates) with
    | none => simpa using hn
    | some v =>
      have : v ∈ List.range n := List.argmax_mem (Option.mem_def.mpr h)
      simpa using List.mem_range.mp this
  exact bijOnRange_transp_comp ht hc (bijOnRange_id n)

lemma bijOnRange_of_zero (f : Layout) : BijOnRange 0 f :=
  ⟨fun q hq => absurd hq (by omega), fun q hq => absurd hq (by omega),
   fun p hp => absurd hp (by omega)⟩

lemma randomShuffle_bij : ∀ (k s n : ℕ), BijOnRange n (randomShuffle k s n) := by
  intro k
  induction k with
  | zero => intro s n; exact bijOnRange_id n
  | succ k ih =>
    intro s n
    rcases Nat.eq_zero_or_pos n with rfl | hn
    · exact bijOnRange_of_zero _
    · exact bijOnRange_transp_comp (Nat.mod_lt _ hn) (Nat.mod_lt _ hn) (ih (lcg s) n)

lemma randomPlacer_bij (n seed : ℕ) : BijOnRange n (RandomPlacer n seed) :=
  randomShuffle_bij n seed n

lemma getD_mem : ∀ (p : List ℕ) (i : ℕ), i < p.length → p.getD i 0 ∈ p := by
  intro p
  induction p with
  | nil => intro i hi; simp at hi
  | cons a t ih =>
    intro i hi
    cases i with
    | zero => simp
    | succ j =>
      simp only [List.getD_cons_succ]
      exact List.mem_cons_of_mem _ (ih j (by simpa using hi))

lemma getD_inj_of_nodup : ∀ (p : List ℕ), p.Nodup →
    ∀ i j, i < p.length → j < p.length → p.getD i 0 = p.getD j 0 → i = j := by
  intro p
  induction p with
  | nil => intro _ i j hi; simp at hi
  | cons a t ih =>
    intro hnd i j hi hj he
    have hnd2 := List.nodup_cons.mp hnd
    cases i with
    | zero =>
      cases j with
      | zero => rfl
      | succ j2 =>
        exfalso
        simp only [List.getD_cons_zero, List.getD_cons_succ] at he
        exact hnd2.1 (he ▸ getD_mem t j2 (by simpa using hj))
    | succ i2 =>
      cases j with
      | zero =>
        exfalso
        simp only [List.getD_cons_zero, List.getD_cons_succ] at he
        exact hnd2.1 (he ▸ getD_mem t i2 (by simpa using hi))
      | succ j2 =>
        simp only [List.getD_cons_succ] at he
        have := ih hnd2.2 i2 j2 (by simpa using hi) (by simpa using hj) he
        omega

lemma mem_getD : ∀ (p : List ℕ) (v : ℕ), v ∈ p →
    ∃ i, i < p.length ∧ p.getD i 0 = v := by
  intro p
  induction p with
  | nil => intro v hv; simp at hv
  | cons a t ih =>
    intro v hv
    rcases List.mem_cons.mp hv with rfl | hv
    · exact ⟨0, by simp, rfl⟩
    · obtain ⟨i, hi, he⟩ := ih v hv
      exact ⟨i + 1, by simpa using hi, by simpa using he⟩

lemma subgraph_bij (c : Conn) (n : ℕ) (gates : List Gate) :
    BijOnRange n (Subgraph c n gates) := by
  unfold Subgraph
  cases hf : (List.range n).permutations.filter
      (fun p => isPermList n p && embedsOK c p (interactionPairs gates)) with
  | nil => exact bijOnRange_id n
  | cons p t =>
    have hp : p ∈ (List.range n).permutations.filter
        (fun p => isPermList n p && embedsOK c p (interactionPairs gates)) := by
      rw [hf]; exact List.mem_cons_self _ _
    have hb := (List.mem_filter.mp hp).2
    rw [Bool.and_eq_true] at hb
    have hperm := hb.1
    rw [isPermList, Bool.and_eq_true, Bool.and_eq_true, Bool.and_eq_true] at hperm
    obtain ⟨⟨⟨hlen, hnd⟩, hsurjb⟩, hbndb⟩ := hperm
    rw [decide_eq_true_eq] at hlen
    rw [decide_eq_true_eq] at hnd
    have hsurj : ∀ v, v < n → v ∈ p := by
      intro v hv
      have := List.all_eq_true.mp hsurjb v (List.mem_range.mpr hv)
      rwa [decide_eq_true_eq] at this
    have hbnd : ∀ i, i < n → p.getD i 0 < n := by
      intro i hi
      have := List.all_eq_true.mp hbndb i (List.mem_range.mpr hi)
      rwa [decide_eq_true_eq] at this
    show BijOnRange n (fun q => p.getD q 0)
    refine ⟨fun q hq => hbnd q hq, ?_, ?_⟩
    · intro q hq r hr he
      exact getD_inj_of_nodup p hnd q r (by rwa [hlen]) (by rwa [hlen]) he
    · intro v hv
      obtain ⟨i, hi, he⟩ := mem_getD p v (hsurj v hv)
      exact ⟨i, by rwa [hlen] at hi, he⟩

lemma reverseTraversal_invPair {n center : ℕ} {gates : List Gate}
    (hc : center < n) (hwf : GatesWF n gates) :
    ∀ k, InvPair n (ReverseTraversal center gates k).1
      (ReverseTraversal center gates k).2 := by
  intro k
  induction k with
  | zero => exact invPair_id n
  | succ k ih =>
    have hwfr : GatesWF n gates.reverse :=
      fun g h => hwf g (List.mem_reverse.mp h)
    have hfwd := (starRouter_correct n center hc gates _ _ hwf ih).2.2
    exact (starRouter_correct n center hc gates.reverse _ _ hwfr hfwd).2.2


lemma hasPlacer_of_getD : ∀ (ps : List PassKind) (j : ℕ),
    ps.getD j PassKind.optimizer = PassKind.placer → hasPlacer ps = true := by
  intro ps
  induction ps with
  | nil => intro j h; simp at h
  | cons k rest ih =>
    intro j h
    cases j with
    | zero =>
      simp only [List.getD_cons_zero] at h
      subst h
      rfl
    | succ j2 =>
      simp only [List.getD_cons_succ] at h
      have hrec := ih j2 h
      cases k <;> simp [hasPlacer, hrec]
  
lemma routerBeforePlacer_of_getD : ∀ (ps : List PassKind) (i j : ℕ), i < j →
    ps.getD i PassKind.optimizer = PassKind.router →
    ps.getD j PassKind.optimizer = PassKind.placer →
    routerBeforePlacer ps = true := by
  intro ps
  induction ps with
  | nil => intro i j _ hi _; simp at hi
  | cons k rest ih =>
    intro i j hij hi hj
    cases i with
    | zero =>
      simp only [List.getD_cons_zero] at hi
      subst hi
      cases j with
      | zero => omega
      | succ j2 =>
        simp only [List.getD_cons_succ] at hj
        have hhp := hasPlacer_of_getD rest j2 hj
        show (hasPlacer rest || routerBeforePlacer rest) = true
        rw [hhp]
        rfl
    | succ i2 =>
      cases j with
      | zero => omega
      | succ j2 =>
        simp only [List.getD_cons_succ] at hi hj
        have hrec := ih i2 j2 (by omega) hi hj
        cases k <;> simp [routerBeforePlacer, hrec]

lemma hasPlacer_eq_false_of_count : ∀ (ps : List PassKind),
    placerCount ps = 0 → hasPlacer ps = false := by
  intro ps
  induction ps with
  | nil => intro _; rfl
  | cons k rest ih =>
    intro h
    cases k with
    | placer => simp [placerCount] at h
    | optimizer =>
      simp only [placerCount] at h
      simpa [hasPlacer] using ih h
    | router =>
      simp only [placerCount] at h
      simpa [hasPlacer] using ih h
    | unroller =>
      simp only [placerCount] at h
      simpa [hasPlacer] using ih h

lemma routerBeforePlacer_eq_false_of_count : ∀ (ps : List PassKind),
    placerCount ps = 0 → routerBeforePlacer ps = false := by
  intro ps
  induction ps with
  | nil => intro _; rfl
  | cons k rest ih =>
    intro h
    cases k with
    | placer => simp [placerCount] at h
    | optimizer =>
      simp only [placerCount] at h
      simpa [routerBeforePlacer] using ih h
    | router =>
      simp only [placerCount] at h
      show (hasPlacer rest || routerBeforePlacer rest) = false
      rw [hasPlacer_eq_false_of_count rest h, ih h]
      rfl
    | unroller =>
      simp only [placerCount] at h
      simpa [routerBeforePlacer] using ih h

lemma validPasses_false_two (ps : List PassKind) (h : 2 ≤ placerCount ps) :
    validPasses ps = false := by
  unfold validPasses
  have h1 : ¬ (placerCount ps ≤ 1) := by omega
  simp [h1]

lemma validPasses_false_rbp (ps : List PassKind) (h : routerBeforePlacer ps = true) :
    validPasses ps = false := by
  unfold validPasses
  simp [h]

lemma validPasses_true_noplacer (ps : List PassKind) (h : placerCount ps = 0) :
    validPasses ps = true := by
  unfold validPasses
  rw [h, routerBeforePlacer_eq_false_of_count ps h]
  rfl

/-- Claim C4: a pass list with two Placer passes, or with a Router pass
preceding a Placer pass, makes the pipeline fail with
`pipelineStructureError` — the validation happens before any pass runs, so
the error branch of `runPipeline` touches neither the passes nor the input
circuit and no pass executes; a pass list with no Placer pass does not
fail for structural reasons: the pipeline runs all passes starting from
the default trivial identity placement. -/
theorem C4_pipeline_validation :
    (∀ (passes : List TranspilerPass) (circuit : List Gate),
        2 ≤ placerCount (passes.map (fun p => p.kind)) →
        runPipeline passes circuit
          = Except.error PipelineError.pipelineStructureError)
    ∧ (∀ (passes : List TranspilerPass) (circuit : List Gate) (i j : ℕ), i < j →
        (passes.map (fun p => p.kind)).getD i PassKind.optimizer = PassKind.router →
        (passes.map (fun p => p.kind)).getD j PassKind.optimizer = PassKind.placer →
        runPipeline passes circuit
          = Except.error PipelineError.pipelineStructureError)
    ∧ (∀ (passes : List TranspilerPass) (circuit : List Gate),
        placerCount (passes.map (fun p => p.kind)) = 0 →
        runPipeline passes circuit
          = Except.ok (execPasses passes (circuit, fun q => q))) := by
  refine ⟨?_, ?_, ?_⟩
  · intro passes circuit h
    simp [runPipeline, validPasses_false_two _ h]
  · intro passes circuit i j hij hi hj
    simp [runPipeline, validPasses_false_rbp _ (routerBeforePlacer_of_getD _ i j hij hi hj)]
  · intro passes circuit h
    simp [runPipeline, validPasses_true_noplacer _ h]

/-- Witness for C4: a double-Placer pipeline and a Router-before-Placer
pipeline each fail with the structure error, and a Placer-free pipeline
succeeds with the identity initial placement. -/
theorem C4_pipeline_validation_witness :
    runPipeline [⟨PassKind.placer, fun s => s⟩, ⟨PassKind.placer, fun s => s⟩] []
        = Except.error PipelineError.pipelineStructureError
    ∧ runPipeline [⟨PassKind.router, fun s => s⟩, ⟨PassKind.placer, fun s => s⟩] []
        = Except.error PipelineError.pipelineStructureError
    ∧ runPipeline [⟨PassKind.optimizer, fun s => s⟩, ⟨PassKind.router, fun s => s⟩,
          ⟨PassKind.unroller, fun s => s⟩] [Gate.g1 GName.u3 0]
        = Except.ok (execPasses [⟨PassKind.optimizer, fun s => s⟩,
          ⟨PassKind.router, fun s => s⟩, ⟨PassKind.unroller, fun s => s⟩]
          ([Gate.g1 GName.u3 0], fun q => q)) :=
  ⟨C4_pipeline_validation.1 _ _ (by decide),
   C4_pipeline_validation.2.1 _ _ 0 1 (by decide) (by decide) (by decide),
   C4_pipeline_validation.2.2 _ _ (by decide)⟩


/-- Claim C2: for each of the three routers, the routed circuit contains
every original gate with qubit indices remapped through the evolving
layout plus zero or more inserted movement gates — pulling the emitted
gates' physical qubits back through the evolving inverse layout reproduces
the input gate list (exactly for the star and shortest-path routers, as a
permutation for SABRE, which may execute independent front-layer gates out
of order) — and every two-qubit gate of the output (movement gates
included) acts on an edge of the connectivity graph. -/
theorem C2_routers_comply_and_preserve :
    (∀ (n center : ℕ) (gates : List Gate) (l inv : Layout),
        center < n → GatesWF n gates → InvPair n l inv →
        logicalTrace (StarConnectivityRouter center gates l inv).1 inv = gates
        ∧ compliant (starConnGraph n center)
            (StarConnectivityRouter center gates l inv).1)
    ∧ (∀ (c : Conn) (gates : List Gate) (l inv : Layout)
          (r : List Gate × Layout × Layout),
        GatesWF c.n gates → InvPair c.n l inv →
        ShortestPaths c gates l inv = some r →
        logicalTrace r.1 inv = gates ∧ compliant c r.1)
    ∧ (∀ (c : Conn) (maxIter : ℕ) (gates : List Gate) (l inv : Layout)
          (r : List Gate × Layout × Layout),
        ConnWF c → GatesWF c.n gates → InvPair c.n l inv →
        Sabre c maxIter gates l inv = some r →
        List.Perm (logicalTrace r.1 inv) gates ∧ compliant c r.1) := by
  refine ⟨?_, ?_, ?_⟩
  · intro n center gates l inv hc hwf hinv
    have h := starRouter_correct n center hc gates l inv hwf hinv
    exact ⟨h.1, h.2.1⟩
  · intro c gates l inv r hwf hinv hr
    have h := shortestPaths_correct c gates l inv r hwf hinv hr
    exact ⟨h.1, h.2.1⟩
  · intro c maxIter gates l inv r hcw hwf hinv hr
    have h := sabreAux_correct c hcw maxIter gates l inv _ r hwf hinv hr
    exact ⟨h.1, h.2.1⟩

/-- Witness for C2: each router applied to the one-gate circuit
`[CZ(0, 2)]` on a 3-qubit device under the identity layout. -/
theorem C2_witness :
    (logicalTrace (StarConnectivityRouter 1 [Gate.g2 GName.cz 0 2]
          (fun q => q) (fun q => q)).1 (fun q => q) = [Gate.g2 GName.cz 0 2]
      ∧ compliant (starConnGraph 3 1)
          (StarConnectivityRouter 1 [Gate.g2 GName.cz 0 2] (fun q => q) (fun q => q)).1)
    ∧ (logicalTrace ((ShortestPaths ⟨3, [(0, 1), (1, 2)]⟩ [Gate.g2 GName.cz 0 2]
            (fun q => q) (fun q => q)).getD ([], fun q => q, fun q => q)).1
          (fun q => q) = [Gate.g2 GName.cz 0 2]
      ∧ compliant ⟨3, [(0, 1), (1, 2)]⟩
          ((ShortestPaths ⟨3, [(0, 1), (1, 2)]⟩ [Gate.g2 GName.cz 0 2]
            (fun q => q) (fun q => q)).getD ([], fun q => q, fun q => q)).1)
    ∧ (List.Perm (logicalTrace ((Sabre ⟨3, [(0, 1), (1, 2)]⟩ 5 [Gate.g2 GName.cz 0 2]
            (fun q => q) (fun q => q)).getD ([], fun q => q, fun q => q)).1
          (fun q => q)) [Gate.g2 GName.cz 0 2]
      ∧ compliant ⟨3, [(0, 1), (1, 2)]⟩
          ((Sabre ⟨3, [(0, 1), (1, 2)]⟩ 5 [Gate.g2 GName.cz 0 2]
            (fun q => q) (fun q => q)).getD ([], fun q => q, fun q => q)).1) :=
  ⟨C2_routers_comply_and_preserve.1 3 1 _ _ _ (by decide) (by decide) (by decide),
   C2_routers_comply_and_preserve.2.1 ⟨3, [(0, 1), (1, 2)]⟩ [Gate.g2 GName.cz 0 2]
     (fun q => q) (fun q => q) _ (by decide) (by decide) rfl,
   C2_routers_comply_and_preserve.2.2 ⟨3, [(0, 1), (1, 2)]⟩ 5 [Gate.g2 GName.cz 0 2]
     (fun q => q) (fun q => q) _ (by decide) (by decide) (by decide) rfl⟩

/-- Claim C7: the Layout is always a bijection on `{0..n-1}` — every
placer variant produces a bijection, the SWAP update performed when a
router inserts a movement gate preserves bijectivity, and the final layout
each router returns is a bijection. -/
theorem C7_layout_bijection :
    (∀ (nl np : ℕ) (l : Layout), Trivial nl np = some l → BijOnRange nl l)
    ∧ (∀ (gates : List Gate) (n center : ℕ), 0 < n → center < n →
        BijOnRange n (StarConnectivityPlacer gates n center))
    ∧ (∀ n seed, BijOnRange n (RandomPlacer n seed))
    ∧ (∀ (c : Conn) (n : ℕ) (gates : List Gate), BijOnRange n (Subgraph c n gates))
    ∧ (∀ (n center k : ℕ) (gates : List Gate), center < n → GatesWF n gates →
        BijOnRange n (ReverseTraversal center gates k).1)
    ∧ (∀ (n a b : ℕ) (l : Layout), a < n → b < n → BijOnRange n l →
        BijOnRange n (swapPhys a b l))
    ∧ (∀ (n center : ℕ) (gates : List Gate) (l inv : Layout),
        center < n → GatesWF n gates → InvPair n l inv →
        BijOnRange n (StarConnectivityRouter center gates l inv).2.1)
    ∧ (∀ (c : Conn) (gates : List Gate) (l inv : Layout)
          (r : List Gate × Layout × Layout),
        GatesWF c.n gates → InvPair c.n l inv →
        ShortestPaths c gates l inv = some r → BijOnRange c.n r.2.1)
    ∧ (∀ (c : Conn) (maxIter : ℕ) (gates : List Gate) (l inv : Layout)
          (r : List Gate × Layout × Layout),
        ConnWF c → GatesWF c.n gates → InvPair c.n l inv →
        Sabre c maxIter gates l inv = some r → BijOnRange c.n r.2.1) := by
  refine ⟨?_, ?_, ?_, ?_, ?_, ?_, ?_, ?_, ?_⟩
  · intro nl np l h
    unfold Trivial at h
    by_cases hle : nl ≤ np
    · rw [if_pos hle] at h
      have h2 : (fun q => q : Layout) = l := by injection h
      rw [← h2]
      exact bijOnRange_id nl
    · rw [if_neg hle] at h
      simp at h
  · intro gates n center hn hc
    exact starPlacer_bij gates n center hn hc
  · intro n seed
    exact randomPlacer_bij n seed
  · intro c n gates
    exact subgraph_bij c n gates
  · intro n center k gates hc hwf
    exact invPair_bijOnRange (reverseTraversal_invPair hc hwf k)
  · intro n a b l ha hb hl
    exact bijOnRange_swapPhys ha hb hl
  · intro n center gates l inv hc hwf hinv
    exact invPair_bijOnRange (starRouter_correct n center hc gates l inv hwf hinv).2.2
  · intro c gates l inv r hwf hinv hr
    exact invPair_bijOnRange (shortestPaths_correct c gates l inv r hwf hinv hr).2.2
  · intro c maxIter gates l inv r hcw hwf hinv hr
    exact invPair_bijOnRange
      (sabreAux_correct c hcw maxIter gates l inv _ r hwf hinv hr).2.2

/-- Witness for C7: each placer and router instantiated on small concrete
devices and circuits. -/
theorem C7_witness :
    BijOnRange 2 ((Trivial 2 3).getD (fun q => q))
    ∧ BijOnRange 2 (StarConnectivityPlacer [] 2 1)
    ∧ BijOnRange 2 (RandomPlacer 2 0)
    ∧ BijOnRange 2 (Subgraph ⟨2, [(0, 1)]⟩ 2 [])
    ∧ BijOnRange 3 (ReverseTraversal 1 [Gate.g2 GName.cz 0 2] 1).1
    ∧ BijOnRange 2 (swapPhys 0 1 (fun q => q))
    ∧ BijOnRange 3 (StarConnectivityRouter 1 [Gate.g2 GName.cz 0 2]
        (fun q => q) (fun q => q)).2.1
    ∧ BijOnRange 3 ((ShortestPaths ⟨3, [(0, 1), (1, 2)]⟩ [Gate.g2 GName.cz 0 2]
        (fun q => q) (fun q => q)).getD ([], fun q => q, fun q => q)).2.1
    ∧ BijOnRange 3 ((Sabre ⟨3, [(0, 1), (1, 2)]⟩ 5 [Gate.g2 GName.cz 0 2]
        (fun q => q) (fun q => q)).getD ([], fun q => q, fun q => q)).2.1 :=
  ⟨C7_layout_bijection.1 2 3 _ rfl,
   C7_layout_bijection.2.1 [] 2 1 (by decide) (by decide),
   C7_layout_bijection.2.2.1 2 0,
   C7_layout_bijection.2.2.2.1 ⟨2, [(0, 1)]⟩ 2 [],
   C7_layout_bijection.2.2.2.2.1 3 1 1 _ (by decide) (by decide),
   C7_layout_bijection.2.2.2.2.2.1 2 0 1 _ (by decide) (by decide) (by decide),
   C7_layout_bijection.2.2.2.2.2.2.1 3 1 _ _ _ (by decide) (by decide) (by decide),
   C7_layout_bijection.2.2.2.2.2.2.2.1 ⟨3, [(0, 1), (1, 2)]⟩ [Gate.g2 GName.cz 0 2]
     (fun q => q) (fun q => q) _ (by decide) (by decide) rfl,
   C7_layout_bijection.2.2.2.2.2.2.2.2 ⟨3, [(0, 1), (1, 2)]⟩ 5 [Gate.g2 GName.cz 0 2]
     (fun q => q) (fun q => q) _ (by decide) (by decide) (by decide) rfl⟩

/-- Claim C10: every edge of the 5-node star connectivity graph is
incident to physical qubit 2 — node 2 is the unique centre — and every
circuit routed over it by the star router with centre 2 has all its
two-qubit gates (movement gates included) acting on a pair containing
qubit 2. -/
theorem C10_star_center_qubit2 :
    (∀ e ∈ star_connectivity.edges, e.1 = 2 ∨ e.2 = 2)
    ∧ (∀ (gates : List Gate) (l inv : Layout), GatesWF 5 gates → InvPair 5 l inv →
        ∀ g ∈ (StarConnectivityRouter 2 gates l inv).1, ∀ a b,
          twoQubitPair g = some (a, b) → a = 2 ∨ b = 2) := by
  constructor
  · intro e he
    unfold star_connectivity starConnGraph at he
    obtain ⟨x, hx, rfl⟩ := List.mem_map.mp he
    right
    rfl
  · intro gates l inv hwf hinv g hg a b hp
    have hcomp := (starRouter_correct 5 2 (by omega) gates l inv hwf hinv).2.1
    exact starConnGraph_adj_center (hcomp g hg a b hp)

/-- Witness for C10: the routed form of `[CZ(0, 1)]` over the 5-node star
has every two-qubit gate touching qubit 2. -/
theorem C10_witness :
    (∀ e ∈ star_connectivity.edges, e.1 = 2 ∨ e.2 = 2)
    ∧ (∀ g ∈ (StarConnectivityRouter 2 [Gate.g2 GName.cz 0 1]
          (fun q => q) (fun q => q)).1, ∀ a b,
        twoQubitPair g = some (a, b) → a = 2 ∨ b = 2) :=
  ⟨C10_star_center_qubit2.1,
   C10_star_center_qubit2.2 [Gate.g2 GName.cz 0 1] _ _ (by decide) (by decide)⟩

/-- Claim C5 (code bug in the notebook pseudocode): on the gate list
`[CZ(0,1), CZ(1,3)]` at position `i = 0` with `(q1, q2) = (0, 1)` (neither
qubit on the centre 2 of the 5-node star), the pseudocode's `find` returns
`q1 = 0`, because its scan starts at the current gate — which always
touches `q1` — and because its second branch returns `q1` at the first
gate touching neither qubit, so the loop can never look past its first
iteration.  The lookahead rule described by the spec and the claim
inspects the subsequent gates, finds `CZ(1,3)` touching qubit 1, and
therefore chooses qubit 1. -/
theorem C5_find_ignores_lookahead :
    find [Gate.g2 GName.cz 0 1, Gate.g2 GName.cz 1 3] 0 1 = 0
    ∧ findLookahead [Gate.g2 GName.cz 1 3] 0 1 = 1 :=
  ⟨rfl, rfl⟩

/-- Counterexample to claim C8 as stated: `star_connectivity` takes no
size parameter — its docstring fixes a 5-node graph — so the claim's
instance at `n = 3` fails: the returned graph does not have 3 nodes. -/
theorem C8_counterexample : star_connectivity.n ≠ 3 := by decide

/-- Claim C8 as amended: the parameterless `star_connectivity()` returns
the fixed 5-node star graph — 5 nodes and exactly 4 edges, each joining a
leaf below 5 to the single centre node 2, with the 4 leaf endpoints
pairwise distinct (so it is a genuine star on 5 nodes, not a
multigraph). -/
theorem C8_star_connectivity_fixed :
    star_connectivity.n = 5
    ∧ star_connectivity.edges.length = 4
    ∧ (∀ e ∈ star_connectivity.edges, e.2 = 2 ∧ e.1 ≠ 2 ∧ e.1 < 5)
    ∧ (star_connectivity.edges.map (fun e => e.1)).Nodup := by
  refine ⟨rfl, rfl, ?_, ?_⟩
  · decide
  · decide

/-- Counterexample to claim C9 as stated: the random-circuit generator's
parameter list (from the notebook docstring) has no seed, and its output
varies with the hidden process-wide random state while every
caller-supplied argument is fixed — it is not deterministic in an explicit
caller-supplied seed. -/
theorem C9_counterexample :
    ("seed" ∉ random_control_circuit_qibo_params)
    ∧ random_control_circuit_qibo 0 5 3 false
        ≠ random_control_circuit_qibo 1 5 3 false := by
  constructor
  · decide
  · decide

/-- Claim C9 as amended: `random_control_circuit_qibo` takes exactly
`(n_qubits, n_cs, cx)` — no explicit seed parameter — and its output
depends on the ambient process-wide RNG state: two runs with identical
arguments but different hidden states produce different circuits.  (The
explicit-seed threading of spec section 9 is a proposed design change,
not current behaviour.) -/
theorem C9_generator_no_seed :
    random_control_circuit_qibo_params = ["n_qubits", "n_cs", "cx"]
    ∧ ("seed" ∉ random_control_circuit_qibo_params)
    ∧ ∃ s1 s2 : ℕ,
        random_control_circuit_qibo s1 5 3 false
          ≠ random_control_circuit_qibo s2 5 3 false :=
  ⟨rfl, by decide, 0, 1, by decide⟩

end QiboTranspiler
